import Mathlib

/-!
Verification development for the caving repository (ascent_time.py,
optimum_rebelay.py).  The Python code is shallowly embedded over exact
rationals: every Python float is modelled as a `ℚ`, a Python call that can
raise is modelled as `Except PyError`, and the scipy cubic `interp1d`
pipeline is modelled as the (unique) not-a-knot cubic interpolating spline
computed by exact rational arithmetic.
-/

/-- Python numeric value as far as this code base can observe it: either an
`int` or a `float` (floats idealised as exact rationals).  The distinction
matters because `ascent_time` checks `isinstance(n_cavers, int)`. -/
inductive PyNum where
  | int (n : ℤ)
  | float (q : ℚ)
deriving DecidableEq

/-- Model of Python `isinstance(·, int)`. -/
def PyNum.isInstanceInt : PyNum → Bool
  | .int _ => true
  | .float _ => false

/-- Numeric value carried by a `PyNum`. -/
def PyNum.toRat : PyNum → ℚ
  | .int n => (n : ℚ)
  | .float q => q

/-- Python exceptions that the embedded code can raise. -/
inductive PyError where
  | valueError (msg : String)
  | zeroDivisionError
deriving DecidableEq

/-- Embedding of `ascent_time` (src/ascent_time.py).  Mirrors the source line
by line: first the `isinstance`/`< 1` check on `n_cavers` (raising
`ValueError('n_cavers must be an integer of at least 1')`), then
`section_length` (full rope when `n_rebelays == 0`), then
`section_time = section_length / ascent_speed + transition_time` — the one
division by a caller-supplied value, which raises `ZeroDivisionError` when
`ascent_speed == 0` — then `leader_time` and `total_time`. -/
def ascent_time (rope_length : ℚ) (n_cavers : PyNum) (n_rebelays : ℕ)
    (ascent_speed : ℚ) (transition_time : ℚ) : Except PyError ℚ :=
  if n_cavers.isInstanceInt = false ∨ n_cavers.toRat < 1 then
    .error (.valueError "n_cavers must be an integer of at least 1")
  else
    let section_length :=
      if 0 < n_rebelays then rope_length / ((n_rebelays : ℚ) + 1) else rope_length
    if ascent_speed = 0 then
      .error .zeroDivisionError
    else
      let section_time := section_length / ascent_speed + transition_time
      let leader_time := section_time * ((n_rebelays : ℚ) + 1)
      let total_time := leader_time + section_time * (n_cavers.toRat - 1)
      .ok total_time

/-- The list `rebelay_lengths` built by the sweep loop of `optimum_rebelay`
(src/optimum_rebelay.py): `rope_length / (n_rebelays + 1)` for `n_rebelays`
in `range(0, max_number_rebelays)`.  A non-positive bound gives the empty
list, exactly as Python's `range`. -/
def rebelay_lengths (rope_length : ℚ) (max_number_rebelays : ℤ) : List ℚ :=
  (List.range max_number_rebelays.toNat).map
    (fun n_rebelays : ℕ => rope_length / ((n_rebelays : ℚ) + 1))

/-- The list `ascent_times` built by the sweep loop of `optimum_rebelay`:
one `ascent_time` call per rebelay count; the first exception raised inside
the loop propagates out. -/
def sweep_times (rope_length : ℚ) (n_cavers : PyNum)
    (ascent_speed transition_time : ℚ) (max_number_rebelays : ℤ) :
    Except PyError (List ℚ) :=
  (List.range max_number_rebelays.toNat).mapM
    (fun n_rebelays =>
      ascent_time rope_length n_cavers n_rebelays ascent_speed transition_time)

/-- The list `ascent_times` built by the sweep loop of
`optimum_rebelay_both_ways`: at every rebelay count the ascent-speed time and
the descent-speed time are computed and their sum is collected. -/
def sweep_times_both (rope_length : ℚ) (n_cavers : PyNum)
    (ascent_speed descent_speed transition_time : ℚ) (max_number_rebelays : ℤ) :
    Except PyError (List ℚ) :=
  (List.range max_number_rebelays.toNat).mapM
    (fun n_rebelays => do
      let time_up ← ascent_time rope_length n_cavers n_rebelays ascent_speed transition_time
      let time_down ← ascent_time rope_length n_cavers n_rebelays descent_speed transition_time
      pure (time_up + time_down))

/-- Sort a list of `(x, y)` pairs by `x` ascending.  Models the internal
`argsort` that `scipy.interpolate.interp1d` performs on its inputs when
`assume_sorted=False` (the default, used by the source). -/
def sortByFst (l : List (ℚ × ℚ)) : List (ℚ × ℚ) :=
  l.insertionSort (fun p q => p.1 ≤ q.1)

/-- Differences of consecutive list elements. -/
def diffs : List ℚ → List ℚ
  | x :: y :: l => (y - x) :: diffs (y :: l)
  | _ => []

/-- Forward sweep of the Thomas algorithm on a tridiagonal system given as
rows `(a, b, c, d)` (sub-, main-, super-diagonal and right-hand side);
returns the eliminated rows `(c', d')`. -/
def thomasForward : ℚ → ℚ → List (ℚ × ℚ × ℚ × ℚ) → List (ℚ × ℚ)
  | _, _, [] => []
  | cp, dp, (a, b, c, d) :: rows =>
    let denom := b - a * cp
    let cn := c / denom
    let dn := (d - a * dp) / denom
    (cn, dn) :: thomasForward cn dn rows

/-- Back substitution of the Thomas algorithm. -/
def thomasBack : List (ℚ × ℚ) → List ℚ
  | [] => []
  | (cn, dn) :: rest =>
    let sol := thomasBack rest
    (dn - cn * sol.headD 0) :: sol

/-- Rewrite of the first interior moment equation after the left not-a-knot
condition `M₀ = M₁(1 + h₀/h₁) - M₂(h₀/h₁)` has been substituted in. -/
def fixFirstRow : ℚ × ℚ × ℚ × ℚ → ℚ × ℚ × ℚ × ℚ
  | (a, b, c, d) => (0, b + a * (1 + a / c), c - a * (a / c), d)

/-- Rewrite of the last interior moment equation after the right not-a-knot
condition has been substituted in. -/
def fixLastRow : ℚ × ℚ × ℚ × ℚ → ℚ × ℚ × ℚ × ℚ
  | (a, b, c, d) => (a - c * (c / a), b + c * (1 + c / a), 0, d)

/-- Apply a rewrite to the last row of a list of rows. -/
def mapLast (g : ℚ × ℚ × ℚ × ℚ → ℚ × ℚ × ℚ × ℚ) :
    List (ℚ × ℚ × ℚ × ℚ) → List (ℚ × ℚ × ℚ × ℚ)
  | [] => []
  | [r] => [g r]
  | r :: r2 :: rows => r :: mapLast g (r2 :: rows)

/-- Divided differences `sᵢ = (yᵢ₊₁ - yᵢ)/hᵢ` of the sample points. -/
def splineSlopes (xs ys : List ℚ) : List ℚ :=
  List.zipWith (fun dy h => dy / h) (diffs ys) (diffs xs)

/-- Rows of the reduced (tridiagonal) not-a-knot system in the unknowns
`M₁ … Mₙ₋₂`: interior rows `(hᵢ₋₁, 2(hᵢ₋₁+hᵢ), hᵢ, 6(sᵢ-sᵢ₋₁))`, with the
first and last rows rewritten by the not-a-knot boundary conditions. -/
def splineRows (xs ys : List ℚ) : List (ℚ × ℚ × ℚ × ℚ) :=
  match List.zipWith (fun hp d => (hp.1, 2 * (hp.1 + hp.2), hp.2, d))
      ((diffs xs).zip (diffs xs).tail)
      ((diffs (splineSlopes xs ys)).map (fun sv => 6 * sv)) with
  | [] => []
  | r :: rest => fixFirstRow r :: mapLast fixLastRow rest

/-- Interior moments `M₁ … Mₙ₋₂`, by the Thomas algorithm. -/
def splineInner (xs ys : List ℚ) : List ℚ :=
  thomasBack (thomasForward 0 0 (splineRows xs ys))

/-- Second-derivative values (moments) of the not-a-knot cubic interpolating
spline through the points `(xs i, ys i)` with `xs` strictly increasing and at
least four points.  This is the exact-arithmetic content of scipy's
`interp1d(..., kind='cubic')` (an external library, modelled by the spline it
computes): the interior C² equations
`hᵢ₋₁Mᵢ₋₁ + 2(hᵢ₋₁+hᵢ)Mᵢ + hᵢMᵢ₊₁ = 6(sᵢ - sᵢ₋₁)` are closed by
third-derivative continuity at the second and second-to-last knots, `M₀` and
`Mₙ₋₁` are eliminated, the tridiagonal rest is solved by the Thomas
algorithm, and the boundary moments are recovered from the not-a-knot
conditions. -/
def moments (xs ys : List ℚ) : List ℚ :=
  let hs := diffs xs
  let inner := splineInner xs ys
  let M0 := inner.headD 0 * (1 + hs.headD 0 / hs.tail.headD 0)
              - inner.tail.headD 0 * (hs.headD 0 / hs.tail.headD 0)
  let Mn := inner.getLastD 0 * (1 + hs.getLastD 0 / hs.dropLast.getLastD 0)
              - inner.dropLast.getLastD 0 * (hs.getLastD 0 / hs.dropLast.getLastD 0)
  (M0 :: inner) ++ [Mn]

/-- Index of the spline piece containing `x`: the largest `i` with
`xs i ≤ x`, clamped to the last piece (extrapolation reuses the boundary
pieces, as a spline evaluator does). -/
def findInterval : List ℚ → ℚ → ℕ
  | _ :: x1 :: x2 :: rest, x =>
    if x < x1 then 0 else findInterval (x1 :: x2 :: rest) x + 1
  | _, _ => 0

/-- Value at `x` of the cubic piece on `[xi, xi1]` with endpoint values
`yi, yi1` and endpoint second derivatives `Mi, Mi1` (standard moment form). -/
def evalPiece (xi xi1 yi yi1 Mi Mi1 x : ℚ) : ℚ :=
  let h := xi1 - xi
  Mi * (xi1 - x) ^ 3 / (6 * h) + Mi1 * (x - xi) ^ 3 / (6 * h)
    + (yi - Mi * h ^ 2 / 6) * (xi1 - x) / h
    + (yi1 - Mi1 * h ^ 2 / 6) * (x - xi) / h

/-- Evaluate the spline with knots `xs`, values `ys` and moments `M` at `x`. -/
def evalSpline (xs ys M : List ℚ) (x : ℚ) : ℚ :=
  let i := findInterval xs x
  evalPiece (xs.getD i 0) (xs.getD (i + 1) 0) (ys.getD i 0) (ys.getD (i + 1) 0)
    (M.getD i 0) (M.getD (i + 1) 0) x

/-- Model of `numpy.linspace a b num` (with `endpoint=True`):
`a + (b - a) * i / (num - 1)` for `i` in `range num`. -/
def linspace (a b : ℚ) (num : ℕ) : List ℚ :=
  (List.range num).map (fun i : ℕ => a + (b - a) * (i : ℚ) / ((num : ℚ) - 1))

/-- Python `min` over a list (the empty case never arises: the pipeline has
already raised on fewer than two samples). -/
def pymin : List ℚ → ℚ
  | [] => 0
  | x :: l => l.foldl min x

/-- Python `max` over a list. -/
def pymax : List ℚ → ℚ
  | [] => 0
  | x :: l => l.foldl max x

/-- Helper for `argmin`: running index, best index so far, best value so far. -/
def argminAux : ℕ → ℕ → ℚ → List ℚ → ℕ
  | _, best, _, [] => best
  | i, best, bv, x :: l =>
    if x < bv then argminAux (i + 1) i x l else argminAux (i + 1) best bv l

/-- Model of `numpy.argmin`: index of the first occurrence of the minimum. -/
def argmin : List ℚ → ℕ
  | [] => 0
  | x :: l => argminAux 1 0 x l

/-- Round to the nearest integer, ties to even — Python's `round`. -/
def roundHalfEven (q : ℚ) : ℤ :=
  let f := q.floor
  let r := q - (f : ℚ)
  if r < 1 / 2 then f
  else if 1 / 2 < r then f + 1
  else if f % 2 = 0 then f else f + 1

/-- Python `round(q, 1)`. -/
def pyround1 (q : ℚ) : ℚ := ((roundHalfEven (q * 10) : ℚ)) / 10

/-- The interpolant `f = interp1d(x, y, kind='cubic')` as a function: sort
the samples by `x` (scipy's internal argsort) and evaluate the not-a-knot
cubic spline through them. -/
def splineFit (x y : List ℚ) (xv : ℚ) : ℚ :=
  evalSpline ((sortByFst (x.zip y)).map Prod.fst) ((sortByFst (x.zip y)).map Prod.snd)
    (moments ((sortByFst (x.zip y)).map Prod.fst) ((sortByFst (x.zip y)).map Prod.snd)) xv

/-- Tail of both optimizers, identical lines in the source:
`f = interp1d(x, y, kind='cubic')`, `x_new = np.linspace(min(x), max(x),
num=1000, endpoint=True)`, `y_new = f(x_new)`, and
`round(x_new[np.argmin(y_new)], 1)`.  `interp1d` validates its input sizes
first (fewer than two samples, or fewer than four for a cubic spline, raise
a `ValueError` inside scipy) — the optimizers themselves perform no
validation. -/
def interp_argmin_round (x y : List ℚ) : Except PyError ℚ :=
  if x.length < 2 then
    .error (.valueError "x and y arrays must have at least 2 entries")
  else if x.length < 4 then
    .error (.valueError "The number of data points must be larger than the spline degree")
  else
    .ok (pyround1 ((linspace (pymin x) (pymax x) 1000).getD
      (argmin ((linspace (pymin x) (pymax x) 1000).map (splineFit x y))) 0))

/-- Embedding of `optimum_rebelay` (src/optimum_rebelay.py): sweep the
rebelay counts, then interpolate, scan and round. -/
def optimum_rebelay (rope_length : ℚ) (n_cavers : PyNum)
    (ascent_speed transition_time : ℚ) (max_number_rebelays : ℤ) :
    Except PyError ℚ := do
  let ys ← sweep_times rope_length n_cavers ascent_speed transition_time max_number_rebelays
  interp_argmin_round (rebelay_lengths rope_length max_number_rebelays) ys

/-- Embedding of `optimum_rebelay_both_ways` (src/optimum_rebelay.py): same
pipeline, with the per-count sample being the sum of the ascent-speed and
descent-speed times. -/
def optimum_rebelay_both_ways (rope_length : ℚ) (n_cavers : PyNum)
    (ascent_speed descent_speed transition_time : ℚ) (max_number_rebelays : ℤ) :
    Except PyError ℚ := do
  let ys ← sweep_times_both rope_length n_cavers ascent_speed descent_speed
    transition_time max_number_rebelays
  interp_argmin_round (rebelay_lengths rope_length max_number_rebelays) ys

/-! ### Basic helper lemmas about the embedded functions -/

theorem ascent_time_int_eq (L t : ℚ) (k : ℤ) (r : ℕ) (s : ℚ) (hk : 1 ≤ k) (hs : s ≠ 0) :
    ascent_time L (.int k) r s t =
      .ok (((if 0 < r then L / ((r : ℚ) + 1) else L) / s + t) * ((r : ℚ) + (k : ℚ))) := by
  have hk' : ¬ ((k : ℚ) < 1) := by
    rw [not_lt]
    exact_mod_cast hk
  unfold ascent_time
  rw [if_neg, if_neg hs]
  · simp only [PyNum.toRat]
    congr 1
    ring
  · simp [PyNum.isInstanceInt, PyNum.toRat, hk']

theorem mapM_ok_map {α : Type} (f : α → Except PyError ℚ) (g : α → ℚ) :
    ∀ l : List α, (∀ a ∈ l, f a = .ok (g a)) → l.mapM f = .ok (l.map g) := by
  intro l
  induction l with
  | nil => intro _; rfl
  | cons a l ih =>
    intro h
    rw [List.mapM_cons, h a (by simp), ih (fun b hb => h b (by simp [hb]))]
    rfl

theorem sweep_times_eq (L t : ℚ) (k : ℤ) (s : ℚ) (m : ℤ) (hk : 1 ≤ k) (hs : s ≠ 0) :
    sweep_times L (.int k) s t m =
      .ok ((List.range m.toNat).map
        (fun r : ℕ => ((if 0 < r then L / ((r : ℚ) + 1) else L) / s + t) * ((r : ℚ) + (k : ℚ)))) :=
  mapM_ok_map _ _ _ (fun r _ => ascent_time_int_eq L t k r s hk hs)

theorem ascent_time_int_zero_speed (L t : ℚ) (k : ℤ) (r : ℕ) (hk : 1 ≤ k) :
    ascent_time L (.int k) r 0 t = .error .zeroDivisionError := by
  have hk2 : (1 : ℚ) ≤ (k : ℚ) := by exact_mod_cast hk
  have hcond : ¬ ((PyNum.int k).isInstanceInt = false ∨ (PyNum.int k).toRat < 1) := by
    push_neg
    exact ⟨by simp [PyNum.isInstanceInt], by simpa [PyNum.toRat] using hk2⟩
  simp only [ascent_time]
  rw [if_neg hcond]
  simp

theorem rebelay_lengths_pairwise_gt (L : ℚ) (m : ℤ) (hL : 0 < L) :
    List.Pairwise (fun a b => b < a) (rebelay_lengths L m) := by
  unfold rebelay_lengths
  rw [List.pairwise_map]
  refine (List.pairwise_lt_range _).imp ?_
  intro i j hij
  refine div_lt_div_of_pos_left hL (by positivity) ?_
  have : (i : ℚ) < (j : ℚ) := by exact_mod_cast hij
  linarith

theorem rebelay_lengths_length (L : ℚ) (m : ℤ) :
    (rebelay_lengths L m).length = m.toNat := by
  simp [rebelay_lengths]

theorem pairwise_zip_fst {R : ℚ → ℚ → Prop} :
    ∀ (x y : List ℚ), List.Pairwise R x →
      List.Pairwise (fun p q : ℚ × ℚ => R p.1 q.1) (x.zip y) := by
  intro x
  induction x with
  | nil => intro y _; simp
  | cons a x ih =>
    intro y hx
    cases y with
    | nil => simp
    | cons b y =>
      rcases List.pairwise_cons.mp hx with ⟨ha, hx'⟩
      rw [List.zip_cons_cons]
      refine List.pairwise_cons.mpr ⟨?_, ih y hx'⟩
      rintro ⟨c, d⟩ hcd
      exact ha c (List.of_mem_zip hcd).1

theorem orderedInsert_of_forall_lt (p : ℚ × ℚ) :
    ∀ m : List (ℚ × ℚ), (∀ q ∈ m, q.1 < p.1) →
      List.orderedInsert (fun p q => p.1 ≤ q.1) p m = m ++ [p] := by
  intro m
  induction m with
  | nil => intro _; rfl
  | cons c m ih =>
    intro h
    rw [List.orderedInsert, if_neg (not_le.mpr (h c (by simp))),
      ih (fun q hq => h q (by simp [hq]))]
    rfl

theorem sortByFst_eq_reverse :
    ∀ l : List (ℚ × ℚ), List.Pairwise (fun p q : ℚ × ℚ => q.1 < p.1) l →
      sortByFst l = l.reverse := by
  intro l
  induction l with
  | nil => intro _; rfl
  | cons p l ih =>
    intro h
    rcases List.pairwise_cons.mp h with ⟨hp, hl⟩
    show List.orderedInsert _ p (List.insertionSort _ l) = _
    rw [show List.insertionSort (fun p q : ℚ × ℚ => p.1 ≤ q.1) l = l.reverse from ih hl,
      orderedInsert_of_forall_lt p l.reverse (fun q hq => hp q (List.mem_reverse.mp hq))]
    simp

/-! ### Helpers about `pymin`, `pymax`, `argmin`, `linspace` and `getD` -/

theorem foldl_min_le_init : ∀ (l : List ℚ) (a : ℚ), l.foldl min a ≤ a := by
  intro l
  induction l with
  | nil => intro a; exact le_refl a
  | cons x l ih =>
    intro a
    exact le_trans (ih (min a x)) (min_le_left a x)

theorem le_foldl_min (c : ℚ) :
    ∀ (l : List ℚ) (a : ℚ), c ≤ a → (∀ z ∈ l, c ≤ z) → c ≤ l.foldl min a := by
  intro l
  induction l with
  | nil => intro a ha _; exact ha
  | cons x l ih =>
    intro a ha h
    exact ih (min a x) (le_min ha (h x (by simp))) (fun z hz => h z (by simp [hz]))

theorem init_le_foldl_max : ∀ (l : List ℚ) (a : ℚ), a ≤ l.foldl max a := by
  intro l
  induction l with
  | nil => intro a; exact le_refl a
  | cons x l ih =>
    intro a
    exact le_trans (le_max_left a x) (ih (max a x))

theorem foldl_max_le (c : ℚ) :
    ∀ (l : List ℚ) (a : ℚ), a ≤ c → (∀ z ∈ l, z ≤ c) → l.foldl max a ≤ c := by
  intro l
  induction l with
  | nil => intro a ha _; exact ha
  | cons x l ih =>
    intro a ha h
    exact ih (max a x) (max_le ha (h x (by simp))) (fun z hz => h z (by simp [hz]))

theorem argminAux_lt :
    ∀ (l : List ℚ) (i best : ℕ) (bv : ℚ), best < i → argminAux i best bv l < i + l.length := by
  intro l
  induction l with
  | nil =>
    intro i best bv h
    simpa [argminAux] using h
  | cons x l ih =>
    intro i best bv h
    rw [argminAux]
    by_cases hx : x < bv
    · rw [if_pos hx]
      have := ih (i + 1) i x (Nat.lt_succ_self i)
      simpa [Nat.add_right_comm, Nat.add_assoc] using this
    · rw [if_neg hx]
      have := ih (i + 1) best bv (Nat.lt_succ_of_lt h)
      simpa [Nat.add_right_comm, Nat.add_assoc] using this

theorem argmin_lt_length (x : ℚ) (l : List ℚ) : argmin (x :: l) < (x :: l).length := by
  have := argminAux_lt l 1 0 x Nat.one_pos
  simpa [argmin, Nat.add_comm] using this

theorem argminAux_of_forall :
    ∀ (l : List ℚ) (i best : ℕ) (bv : ℚ), (∀ z ∈ l, ¬ z < bv) → argminAux i best bv l = best := by
  intro l
  induction l with
  | nil => intro i best bv _; rfl
  | cons x l ih =>
    intro i best bv h
    rw [argminAux, if_neg (h x (by simp))]
    exact ih (i + 1) best bv (fun z hz => h z (by simp [hz]))

theorem argmin_of_head_lt (x : ℚ) (l : List ℚ) (h : ∀ z ∈ l, x < z) : argmin (x :: l) = 0 := by
  rw [argmin]
  exact argminAux_of_forall l 1 0 x (fun z hz => not_lt.mpr (le_of_lt (h z hz)))

theorem linspace_length (a b : ℚ) (num : ℕ) : (linspace a b num).length = num := by
  simp [linspace]

theorem linspace_getD (a b : ℚ) (num i : ℕ) (h : i < num) :
    (linspace a b num).getD i 0 = a + (b - a) * (i : ℚ) / ((num : ℚ) - 1) := by
  rw [linspace, List.getD_eq_getElem?_getD, List.getElem?_map, List.getElem?_range h]
  rfl

theorem linspace_pairwise (a b : ℚ) (hab : a < b) :
    List.Pairwise (· < ·) (linspace a b 1000) := by
  rw [linspace, List.pairwise_map]
  refine (List.pairwise_lt_range _).imp ?_
  intro i j hij
  have hij' : (i : ℚ) < (j : ℚ) := by exact_mod_cast hij
  have hb : (0 : ℚ) < b - a := by linarith
  have : (b - a) * (i : ℚ) / 999 < (b - a) * (j : ℚ) / 999 := by
    apply div_lt_div_of_pos_right _ (by norm_num)
    exact mul_lt_mul_of_pos_left hij' hb
  have h1000 : ((1000 : ℕ) : ℚ) - 1 = 999 := by norm_num
  rw [h1000]
  linarith

theorem getD_map_of_lt (f : ℚ → ℚ) (l : List ℚ) (i : ℕ) (h : i < l.length) :
    (l.map f).getD i 0 = f (l.getD i 0) := by
  rw [List.getD_eq_getElem?_getD, List.getD_eq_getElem?_getD, List.getElem?_map]
  rw [List.getElem?_eq_getElem h]
  rfl

theorem getD_eq_zero_of_forall (l : List ℚ) (i : ℕ) (h : ∀ z ∈ l, z = 0) :
    l.getD i 0 = 0 := by
  rw [List.getD_eq_getElem?_getD]
  cases hv : l[i]? with
  | none => rfl
  | some v =>
    have : v ∈ l := List.getElem?_mem hv
    simp [h v this]

theorem headD_eq_zero_of_forall (l : List ℚ) (h : ∀ z ∈ l, z = 0) : l.headD 0 = 0 := by
  cases l with
  | nil => rfl
  | cons x l => simpa using h x (by simp)

theorem getLastD_eq_zero_of_forall (l : List ℚ) (h : ∀ z ∈ l, z = 0) : l.getLastD 0 = 0 := by
  cases l with
  | nil => rfl
  | cons x l =>
    rw [List.getLastD_eq_getLast?, List.getLast?_eq_getLast (x :: l) (by simp)]
    exact h _ (List.getLast_mem _)

/-! ### The spline of data on a straight line has all moments zero -/

theorem diffs_cons_cons (x y : ℚ) (l : List ℚ) :
    diffs (x :: y :: l) = (y - x) :: diffs (y :: l) := rfl

theorem diffs_pos_of_pairwise : ∀ l : List ℚ, List.Pairwise (· < ·) l →
    ∀ z ∈ diffs l, 0 < z := by
  intro l
  induction l with
  | nil => intro _ z hz; simp [diffs] at hz
  | cons x l ih =>
    intro h z hz
    cases l with
    | nil => simp [diffs] at hz
    | cons y rest =>
      rw [diffs_cons_cons] at hz
      rcases List.mem_cons.mp hz with hz | hz
      · have hxy : x < y := (List.pairwise_cons.mp h).1 y (by simp)
        rw [hz]
        linarith
      · exact ih (List.pairwise_cons.mp h).2 z hz

theorem diffs_zero_of_const (c : ℚ) : ∀ l : List ℚ, (∀ z ∈ l, z = c) →
    ∀ z ∈ diffs l, z = 0 := by
  intro l
  induction l with
  | nil => intro _ z hz; simp [diffs] at hz
  | cons x l ih =>
    intro h z hz
    cases l with
    | nil => simp [diffs] at hz
    | cons y rest =>
      rw [diffs_cons_cons] at hz
      rcases List.mem_cons.mp hz with hz | hz
      · rw [hz, h x (by simp), h y (by simp)]
        ring
      · exact ih (fun w hw => h w (by simp [hw])) z hz

theorem zipWith_div_same_one : ∀ hl : List ℚ, (∀ h ∈ hl, h ≠ 0) →
    ∀ z ∈ List.zipWith (fun dy h => dy / h) hl hl, z = 1 := by
  intro hl
  induction hl with
  | nil => intro _ z hz; simp at hz
  | cons h0 hl ih =>
    intro hne z hz
    rw [List.zipWith_cons_cons] at hz
    rcases List.mem_cons.mp hz with hz | hz
    · rw [hz]
      exact div_self (hne h0 (by simp))
    · exact ih (fun w hw => hne w (by simp [hw])) z hz

theorem zipWith_rows_d_zero :
    ∀ (hp : List (ℚ × ℚ)) (ds : List ℚ), (∀ d ∈ ds, d = 0) →
      ∀ r ∈ List.zipWith (fun hp d => (hp.1, 2 * (hp.1 + hp.2), hp.2, d)) hp ds,
        r.2.2.2 = 0 := by
  intro hp
  induction hp with
  | nil => intro ds _ r hr; simp at hr
  | cons p hp ih =>
    intro ds hd r hr
    cases ds with
    | nil => simp at hr
    | cons d ds =>
      rw [List.zipWith_cons_cons] at hr
      rcases List.mem_cons.mp hr with hr | hr
      · rw [hr]
        exact hd d (by simp)
      · exact ih ds (fun w hw => hd w (by simp [hw])) r hr

theorem fixFirstRow_d (r : ℚ × ℚ × ℚ × ℚ) : (fixFirstRow r).2.2.2 = r.2.2.2 := by
  obtain ⟨a, b, c, d⟩ := r
  rfl

theorem fixLastRow_d (r : ℚ × ℚ × ℚ × ℚ) : (fixLastRow r).2.2.2 = r.2.2.2 := by
  obtain ⟨a, b, c, d⟩ := r
  rfl

theorem mapLast_d_zero (g : ℚ × ℚ × ℚ × ℚ → ℚ × ℚ × ℚ × ℚ)
    (hg : ∀ r, (g r).2.2.2 = r.2.2.2) :
    ∀ rows : List (ℚ × ℚ × ℚ × ℚ), (∀ r ∈ rows, r.2.2.2 = 0) →
      ∀ r ∈ mapLast g rows, r.2.2.2 = 0 := by
  intro rows
  induction rows with
  | nil => intro _ r hr; simp [mapLast] at hr
  | cons r0 rows ih =>
    intro h r hr
    cases rows with
    | nil =>
      simp only [mapLast, List.mem_singleton] at hr
      rw [hr, hg r0]
      exact h r0 (by simp)
    | cons r1 rows' =>
      simp only [mapLast] at hr
      rcases List.mem_cons.mp hr with hr | hr
      · rw [hr]
        exact h r0 (by simp)
      · exact ih (fun w hw => h w (by simp [hw])) r hr

theorem splineRows_d_zero (xs ys : List ℚ)
    (hslopes : ∀ z ∈ diffs (splineSlopes xs ys), z = 0) :
    ∀ r ∈ splineRows xs ys, r.2.2.2 = 0 := by
  intro r hr
  unfold splineRows at hr
  have hrhs : ∀ d ∈ (diffs (splineSlopes xs ys)).map (fun sv => 6 * sv), d = 0 := by
    intro d hd
    rcases List.mem_map.mp hd with ⟨sv, hsv, rfl⟩
    rw [hslopes sv hsv]
    ring
  have hz := zipWith_rows_d_zero ((diffs xs).zip (diffs xs).tail) _ hrhs
  cases hzw : List.zipWith (fun hp d => (hp.1, 2 * (hp.1 + hp.2), hp.2, d))
      ((diffs xs).zip (diffs xs).tail)
      ((diffs (splineSlopes xs ys)).map (fun sv => 6 * sv)) with
  | nil =>
    rw [hzw] at hr
    simp at hr
  | cons r0 rest =>
    rw [hzw] at hr hz
    rcases List.mem_cons.mp hr with hr | hr
    · rw [hr, fixFirstRow_d]
      exact hz r0 (by simp)
    · exact mapLast_d_zero fixLastRow fixLastRow_d rest
        (fun w hw => hz w (by simp [hw])) r hr

theorem thomasForward_snd_zero :
    ∀ (rows : List (ℚ × ℚ × ℚ × ℚ)) (cp dp : ℚ), dp = 0 →
      (∀ row ∈ rows, row.2.2.2 = 0) →
      ∀ p ∈ thomasForward cp dp rows, p.2 = 0 := by
  intro rows
  induction rows with
  | nil => intro cp dp _ _ p hp; simp [thomasForward] at hp
  | cons row rows ih =>
    intro cp dp hdp hd p hp
    obtain ⟨a, b, c, d⟩ := row
    have hd0 : d = 0 := hd (a, b, c, d) (by simp)
    simp only [thomasForward] at hp
    have hdn : (d - a * dp) / (b - a * cp) = 0 := by
      rw [hd0, hdp]
      simp
    rcases List.mem_cons.mp hp with hp | hp
    · rw [hp]
      exact hdn
    · exact ih _ _ hdn (fun w hw => hd w (by simp [hw])) p hp

theorem thomasBack_zero :
    ∀ m : List (ℚ × ℚ), (∀ p ∈ m, p.2 = 0) → ∀ z ∈ thomasBack m, z = 0 := by
  intro m
  induction m with
  | nil => intro _ z hz; simp [thomasBack] at hz
  | cons p m ih =>
    intro h z hz
    obtain ⟨cn, dn⟩ := p
    simp only [thomasBack] at hz
    rcases List.mem_cons.mp hz with hz | hz
    · have hdn : dn = 0 := h (cn, dn) (by simp)
      have hh : (thomasBack m).headD 0 = 0 :=
        headD_eq_zero_of_forall _ (ih (fun q hq => h q (by simp [hq])))
      rw [hz, hdn, hh]
      ring
    · exact ih (fun q hq => h q (by simp [hq])) z hz

theorem splineInner_zero (xs ys : List ℚ)
    (hslopes : ∀ z ∈ diffs (splineSlopes xs ys), z = 0) :
    ∀ z ∈ splineInner xs ys, z = 0 :=
  thomasBack_zero _ (thomasForward_snd_zero _ 0 0 rfl (splineRows_d_zero xs ys hslopes))

theorem moments_all_zero (xs ys : List ℚ)
    (hslopes : ∀ z ∈ diffs (splineSlopes xs ys), z = 0) :
    ∀ z ∈ moments xs ys, z = 0 := by
  intro z hz
  have hin := splineInner_zero xs ys hslopes
  have htail : ∀ w ∈ (splineInner xs ys).tail, w = 0 :=
    fun w hw => hin w (List.tail_sublist _ |>.subset hw)
  have hdrop : ∀ w ∈ (splineInner xs ys).dropLast, w = 0 :=
    fun w hw => hin w (List.dropLast_sublist _ |>.subset hw)
  unfold moments at hz
  rcases List.mem_append.mp hz with hz | hz
  · rcases List.mem_cons.mp hz with hz | hz
    · rw [hz, headD_eq_zero_of_forall _ hin, headD_eq_zero_of_forall _ htail]
      ring
    · exact hin z hz
  · rw [List.mem_singleton.mp hz, getLastD_eq_zero_of_forall _ hin,
      getLastD_eq_zero_of_forall _ hdrop]
    ring

/-! ### Evaluating the spline of data on a straight line -/

theorem findInterval_succ_lt :
    ∀ (l : List ℚ) (x : ℚ), 2 ≤ l.length → findInterval l x + 1 < l.length := by
  intro l
  induction l with
  | nil => intro x h; simp at h
  | cons a l ih =>
    intro x h
    cases l with
    | nil => simp at h
    | cons b l' =>
      cases l' with
      | nil => simp [findInterval]
      | cons c rest =>
        rw [findInterval]
        by_cases hx : x < b
        · rw [if_pos hx]
          simp
        · rw [if_neg hx]
          have := ih x (by simp)
          simp only [List.length_cons] at this ⊢
          omega

theorem evalPiece_affine (p q xi xi1 x : ℚ) (h : xi ≠ xi1) :
    evalPiece xi xi1 (p + q * xi) (p + q * xi1) 0 0 x = p + q * x := by
  unfold evalPiece
  have hne : xi1 - xi ≠ 0 := sub_ne_zero.mpr (Ne.symm h)
  field_simp
  ring

theorem diffs_map_affine (p q : ℚ) : ∀ l : List ℚ,
    diffs (l.map (fun v => p + q * v)) = (diffs l).map (fun v => q * v) := by
  intro l
  induction l with
  | nil => rfl
  | cons x l ih =>
    cases l with
    | nil => rfl
    | cons y rest =>
      show (p + q * y - (p + q * x)) :: diffs (List.map (fun v => p + q * v) (y :: rest)) = _
      rw [ih]
      show _ = (q * (y - x)) :: List.map (fun v => q * v) (diffs (y :: rest))
      congr 1
      ring

theorem zipWith_scaled_div (q : ℚ) : ∀ hl : List ℚ, (∀ h ∈ hl, h ≠ 0) →
    ∀ z ∈ List.zipWith (fun dy h => dy / h) (hl.map (fun v => q * v)) hl, z = q := by
  intro hl
  induction hl with
  | nil => intro _ z hz; simp at hz
  | cons h0 hl ih =>
    intro hne z hz
    rw [List.map_cons, List.zipWith_cons_cons] at hz
    rcases List.mem_cons.mp hz with hz | hz
    · rw [hz]
      exact mul_div_cancel_right₀ q (hne h0 (by simp))
    · exact ih (fun w hw => hne w (by simp [hw])) z hz

theorem splineSlopes_affine_const (p q : ℚ) (xs : List ℚ)
    (hne : ∀ h ∈ diffs xs, h ≠ 0) :
    ∀ z ∈ splineSlopes xs (xs.map (fun v => p + q * v)), z = q := by
  intro z hz
  unfold splineSlopes at hz
  rw [diffs_map_affine] at hz
  exact zipWith_scaled_div q (diffs xs) hne z hz

theorem evalSpline_affine (p q : ℚ) (xs M : List ℚ) (x : ℚ)
    (hlen : 2 ≤ xs.length)
    (hsort : List.Pairwise (· < ·) xs)
    (hM : ∀ z ∈ M, z = 0) :
    evalSpline xs (xs.map (fun v => p + q * v)) M x = p + q * x := by
  simp only [evalSpline]
  have hi1 : findInterval xs x + 1 < xs.length := findInterval_succ_lt xs x hlen
  have hi0 : findInterval xs x < xs.length := Nat.lt_of_succ_lt hi1
  rw [getD_eq_zero_of_forall M _ hM, getD_eq_zero_of_forall M _ hM,
    getD_map_of_lt _ _ _ hi0, getD_map_of_lt _ _ _ hi1]
  refine evalPiece_affine p q _ _ x (ne_of_lt ?_)
  have hg := List.pairwise_iff_get.mp hsort ⟨findInterval xs x, hi0⟩
    ⟨findInterval xs x + 1, hi1⟩ (by simp)
  rw [List.getD_eq_getElem _ _ hi0, List.getD_eq_getElem _ _ hi1]
  exact hg

/-! ### The optimizer tail on samples that lie on a straight line -/

theorem foldl_min_le_mem :
    ∀ (l : List ℚ) (a z : ℚ), z ∈ l → l.foldl min a ≤ z := by
  intro l
  induction l with
  | nil => intro a z hz; simp at hz
  | cons x l ih =>
    intro a z hz
    rcases List.mem_cons.mp hz with hz | hz
    · rw [hz]
      exact le_trans (foldl_min_le_init l (min a x)) (min_le_right a x)
    · exact ih (min a x) z hz

theorem pymin_lt_pymax (a b : ℚ) (l : List ℚ)
    (hdesc : List.Pairwise (fun u v => v < u) (a :: b :: l)) :
    pymin (a :: b :: l) < pymax (a :: b :: l) := by
  have hba : b < a := (List.pairwise_cons.mp hdesc).1 b (by simp)
  have h1 : (b :: l).foldl min a ≤ b := foldl_min_le_mem (b :: l) a b (by simp)
  have h2 : a ≤ (b :: l).foldl max a := init_le_foldl_max (b :: l) a
  show (b :: l).foldl min a < (b :: l).foldl max a
  linarith

theorem argmin_of_pairwise (l : List ℚ) (h : List.Pairwise (· < ·) l) (hne : l ≠ []) :
    argmin l = 0 := by
  cases l with
  | nil => exact absurd rfl hne
  | cons x l =>
    exact argmin_of_head_lt x l (List.pairwise_cons.mp h).1

theorem splineFit_affine (p q : ℚ) (x : List ℚ) (hlen : 2 ≤ x.length)
    (hdesc : List.Pairwise (fun a b => b < a) x) (xv : ℚ) :
    splineFit x (x.map (fun v => p + q * v)) xv = p + q * xv := by
  have hzdesc := pairwise_zip_fst x (x.map (fun v => p + q * v)) hdesc
  have hxy : x.length ≤ (x.map (fun v => p + q * v)).length := by rw [List.length_map]
  have hyx : (x.map (fun v => p + q * v)).length ≤ x.length := by rw [List.length_map]
  have hfst : ((x.zip (x.map (fun v => p + q * v))).reverse).map Prod.fst = x.reverse := by
    rw [List.map_reverse, List.map_fst_zip _ _ hxy]
  have hsnd : ((x.zip (x.map (fun v => p + q * v))).reverse).map Prod.snd
      = x.reverse.map (fun v => p + q * v) := by
    rw [List.map_reverse, List.map_snd_zip _ _ hyx, List.map_reverse]
  unfold splineFit
  rw [sortByFst_eq_reverse _ hzdesc, hfst, hsnd]
  have hrs : List.Pairwise (· < ·) x.reverse := by
    rw [List.pairwise_reverse]
    exact hdesc
  have hne_d : ∀ h ∈ diffs x.reverse, h ≠ 0 :=
    fun h hh => ne_of_gt (diffs_pos_of_pairwise _ hrs h hh)
  have hM := moments_all_zero x.reverse (x.reverse.map (fun v => p + q * v))
    (diffs_zero_of_const q _ (splineSlopes_affine_const p q x.reverse hne_d))
  exact evalSpline_affine p q x.reverse _ xv (by rw [List.length_reverse]; exact hlen) hrs hM

theorem interp_argmin_round_affine (p q : ℚ) (x : List ℚ)
    (hlen : 4 ≤ x.length)
    (hdesc : List.Pairwise (fun a b => b < a) x)
    (hq : 0 < q) :
    interp_argmin_round x (x.map (fun v => p + q * v)) = .ok (pyround1 (pymin x)) := by
  unfold interp_argmin_round
  rw [if_neg (by omega), if_neg (by omega)]
  have hmap : (linspace (pymin x) (pymax x) 1000).map (splineFit x (x.map (fun v => p + q * v)))
      = (linspace (pymin x) (pymax x) 1000).map (fun xv => p + q * xv) :=
    List.map_congr_left (fun xv _ => splineFit_affine p q x (by omega) hdesc xv)
  rw [hmap]
  have hminmax : pymin x < pymax x := by
    obtain ⟨a, b, l, rfl⟩ : ∃ a b l, x = a :: b :: l := by
      cases x with
      | nil => simp at hlen
      | cons a t =>
        cases t with
        | nil => simp at hlen
        | cons b l => exact ⟨a, b, l, rfl⟩
    exact pymin_lt_pymax a b l hdesc
  have hplm : List.Pairwise (· < ·)
      ((linspace (pymin x) (pymax x) 1000).map (fun xv => p + q * xv)) := by
    rw [List.pairwise_map]
    refine (linspace_pairwise _ _ hminmax).imp ?_
    intro u v huv
    nlinarith
  have hargmin :
      argmin ((linspace (pymin x) (pymax x) 1000).map (fun xv => p + q * xv)) = 0 := by
    refine argmin_of_pairwise _ hplm (List.ne_nil_of_length_pos ?_)
    rw [List.length_map, linspace_length]
    norm_num
  rw [hargmin, linspace_getD _ _ 1000 0 (by norm_num)]
  norm_num

theorem optimum_rebelay_of_sweep_ok (L : ℚ) (n : PyNum) (s t : ℚ) (m : ℤ) (ys : List ℚ)
    (h : sweep_times L n s t m = .ok ys) :
    optimum_rebelay L n s t m = interp_argmin_round (rebelay_lengths L m) ys := by
  unfold optimum_rebelay
  rw [h]
  rfl

theorem sweep_linear_case :
    sweep_times 1 (.int 2) 1 0 100 = .ok ((rebelay_lengths 1 100).map (fun v => 1 + 1 * v)) := by
  rw [sweep_times_eq 1 0 2 1 100 (by norm_num) (by norm_num)]
  congr 1
  rw [rebelay_lengths, List.map_map]
  refine List.map_congr_left ?_
  intro r hr
  rcases Nat.eq_zero_or_pos r with hr0 | hr0
  · subst hr0
    norm_num
  · rw [if_pos hr0]
    have h1 : ((r : ℚ) + 1) ≠ 0 := by positivity
    field_simp
    ring

set_option maxRecDepth 40000 in
attribute [local semireducible] Rat.add Rat.mul Rat.inv Rat.sub in
theorem pyround1_pymin_linear_case : pyround1 (pymin (rebelay_lengths 1 100)) = 0 := by decide

/-- On rope length 1, two cavers, speed 1 and zero transition time the sweep
samples lie exactly on the line `time = 1 + sectionLength`, the fitted curve
is that same line, its minimum over the dense grid is at the smallest grid
point `1/100`, and `round(0.01, 1) = 0.0`. -/
theorem optimum_rebelay_linear_eval : optimum_rebelay 1 (.int 2) 1 0 100 = .ok 0 := by
  rw [optimum_rebelay_of_sweep_ok 1 (.int 2) 1 0 100 _ sweep_linear_case,
    interp_argmin_round_affine 1 1 (rebelay_lengths 1 100)
      (by rw [rebelay_lengths_length]; decide)
      (rebelay_lengths_pairwise_gt 1 100 one_pos) one_pos,
    pyround1_pymin_linear_case]

/-! ### Doubling every sample time doubles the fitted curve pointwise -/

theorem diffs_map_linear (g : ℚ → ℚ) (hg : ∀ a b : ℚ, g a - g b = g (a - b)) :
    ∀ l : List ℚ, diffs (l.map g) = (diffs l).map g := by
  intro l
  induction l with
  | nil => rfl
  | cons x l ih =>
    cases l with
    | nil => rfl
    | cons y rest =>
      show (g y - g x) :: diffs (List.map g (y :: rest)) = _
      rw [ih]
      show _ = (g (y - x)) :: List.map g (diffs (y :: rest))
      rw [hg y x]

theorem zipWith_div_map_double :
    ∀ ls hs : List ℚ,
      List.zipWith (fun dy h => dy / h) (ls.map (fun v => v + v)) hs
        = (List.zipWith (fun dy h => dy / h) ls hs).map (fun v => v + v) := by
  intro ls
  induction ls with
  | nil => intro hs; rfl
  | cons a ls ih =>
    intro hs
    cases hs with
    | nil => rfl
    | cons h0 hs =>
      rw [List.map_cons, List.zipWith_cons_cons, List.zipWith_cons_cons, List.map_cons, ih]
      congr 1
      exact add_div a a h0

theorem splineSlopes_map_double (xs ys : List ℚ) :
    splineSlopes xs (ys.map (fun v => v + v)) = (splineSlopes xs ys).map (fun v => v + v) := by
  unfold splineSlopes
  rw [diffs_map_linear (fun v => v + v) (fun a b => by ring), zipWith_div_map_double]

theorem zipWith_rows_map_double :
    ∀ (hp : List (ℚ × ℚ)) (ds : List ℚ),
      List.zipWith (fun hp d => (hp.1, 2 * (hp.1 + hp.2), hp.2, d)) hp
          (ds.map (fun v => v + v))
        = (List.zipWith (fun hp d => (hp.1, 2 * (hp.1 + hp.2), hp.2, d)) hp ds).map
            (fun r : ℚ × ℚ × ℚ × ℚ => (r.1, r.2.1, r.2.2.1, r.2.2.2 + r.2.2.2)) := by
  intro hp
  induction hp with
  | nil => intro ds; rfl
  | cons p hp ih =>
    intro ds
    cases ds with
    | nil => rfl
    | cons d ds =>
      rw [List.map_cons, List.zipWith_cons_cons, List.zipWith_cons_cons, List.map_cons, ih]

theorem fixFirstRow_map_double (r : ℚ × ℚ × ℚ × ℚ) :
    fixFirstRow (r.1, r.2.1, r.2.2.1, r.2.2.2 + r.2.2.2)
      = ((fixFirstRow r).1, (fixFirstRow r).2.1, (fixFirstRow r).2.2.1,
          (fixFirstRow r).2.2.2 + (fixFirstRow r).2.2.2) := by
  obtain ⟨a, b, c, d⟩ := r
  rfl

theorem fixLastRow_map_double (r : ℚ × ℚ × ℚ × ℚ) :
    fixLastRow (r.1, r.2.1, r.2.2.1, r.2.2.2 + r.2.2.2)
      = ((fixLastRow r).1, (fixLastRow r).2.1, (fixLastRow r).2.2.1,
          (fixLastRow r).2.2.2 + (fixLastRow r).2.2.2) := by
  obtain ⟨a, b, c, d⟩ := r
  rfl

theorem mapLast_cons_cons (g : ℚ × ℚ × ℚ × ℚ → ℚ × ℚ × ℚ × ℚ)
    (r r2 : ℚ × ℚ × ℚ × ℚ) (rows : List (ℚ × ℚ × ℚ × ℚ)) :
    mapLast g (r :: r2 :: rows) = r :: mapLast g (r2 :: rows) := rfl

theorem mapLast_map_double (g : ℚ × ℚ × ℚ × ℚ → ℚ × ℚ × ℚ × ℚ)
    (hcomm : ∀ r, g (r.1, r.2.1, r.2.2.1, r.2.2.2 + r.2.2.2)
      = ((g r).1, (g r).2.1, (g r).2.2.1, (g r).2.2.2 + (g r).2.2.2)) :
    ∀ rows : List (ℚ × ℚ × ℚ × ℚ),
      mapLast g (rows.map (fun r : ℚ × ℚ × ℚ × ℚ => (r.1, r.2.1, r.2.2.1, r.2.2.2 + r.2.2.2)))
        = (mapLast g rows).map
            (fun r : ℚ × ℚ × ℚ × ℚ => (r.1, r.2.1, r.2.2.1, r.2.2.2 + r.2.2.2)) := by
  intro rows
  induction rows with
  | nil => rfl
  | cons r0 rows ih =>
    cases rows with
    | nil =>
      show [g (r0.1, r0.2.1, r0.2.2.1, r0.2.2.2 + r0.2.2.2)] = _
      rw [hcomm r0]
      rfl
    | cons r1 rows' =>
      simp only [List.map_cons, mapLast_cons_cons]
      exact congrArg (List.cons _) ih

theorem thomasForward_map_double :
    ∀ (rows : List (ℚ × ℚ × ℚ × ℚ)) (cp dp dp2 : ℚ), dp2 = dp + dp →
      thomasForward cp dp2
          (rows.map (fun r : ℚ × ℚ × ℚ × ℚ => (r.1, r.2.1, r.2.2.1, r.2.2.2 + r.2.2.2)))
        = (thomasForward cp dp rows).map (fun p : ℚ × ℚ => (p.1, p.2 + p.2)) := by
  intro rows
  induction rows with
  | nil => intro cp dp dp2 _; rfl
  | cons r rows ih =>
    intro cp dp dp2 hdp2
    obtain ⟨a, b, c, d⟩ := r
    simp only [List.map_cons, thomasForward]
    have hd2 : (d + d - a * dp2) / (b - a * cp)
        = (d - a * dp) / (b - a * cp) + (d - a * dp) / (b - a * cp) := by
      rw [hdp2, ← add_div]
      congr 1
      ring
    rw [hd2, ih (c / (b - a * cp)) ((d - a * dp) / (b - a * cp)) _ rfl]

theorem headD_map_double (l : List ℚ) :
    (l.map (fun v => v + v)).headD 0 = l.headD 0 + l.headD 0 := by
  cases l with
  | nil => norm_num
  | cons x l => rfl

theorem thomasBack_map_double :
    ∀ m : List (ℚ × ℚ),
      thomasBack (m.map (fun p : ℚ × ℚ => (p.1, p.2 + p.2)))
        = (thomasBack m).map (fun v => v + v) := by
  intro m
  induction m with
  | nil => rfl
  | cons p m ih =>
    obtain ⟨cn, dn⟩ := p
    simp only [List.map_cons, thomasBack]
    rw [ih, headD_map_double]
    congr 1
    ring

theorem tail_map_double (l : List ℚ) :
    (l.map (fun v => v + v)).tail = l.tail.map (fun v => v + v) := by
  cases l with
  | nil => rfl
  | cons x l => rfl

theorem getLastD_map_double :
    ∀ (l : List ℚ) (a : ℚ),
      (l.map (fun v => v + v)).getLastD (a + a) = l.getLastD a + l.getLastD a := by
  intro l
  induction l with
  | nil => intro a; rfl
  | cons x l ih =>
    intro a
    rw [List.map_cons, List.getLastD_cons, List.getLastD_cons]
    exact ih x

theorem dropLast_map_double : ∀ l : List ℚ,
    (l.map (fun v => v + v)).dropLast = l.dropLast.map (fun v => v + v) := by
  intro l
  induction l with
  | nil => rfl
  | cons x l ih =>
    cases l with
    | nil => rfl
    | cons y rest =>
      simp only [List.map_cons, List.dropLast_cons₂]
      exact congrArg (List.cons _) ih

theorem getD_map_double (l : List ℚ) (i : ℕ) :
    (l.map (fun v => v + v)).getD i 0 = l.getD i 0 + l.getD i 0 := by
  rw [List.getD_eq_getElem?_getD, List.getD_eq_getElem?_getD, List.getElem?_map]
  cases l[i]? with
  | none => norm_num
  | some v => rfl

theorem getLastD_map_double0 (l : List ℚ) :
    (l.map (fun v => v + v)).getLastD 0 = l.getLastD 0 + l.getLastD 0 := by
  have h := getLastD_map_double l 0
  rw [show (0 : ℚ) + 0 = 0 from by norm_num] at h
  exact h

theorem splineRows_map_double (xs ys : List ℚ) :
    splineRows xs (ys.map (fun v => v + v))
      = (splineRows xs ys).map
          (fun r : ℚ × ℚ × ℚ × ℚ => (r.1, r.2.1, r.2.2.1, r.2.2.2 + r.2.2.2)) := by
  unfold splineRows
  rw [splineSlopes_map_double, diffs_map_linear (fun v => v + v) (fun a b => by ring),
    show ((diffs (splineSlopes xs ys)).map (fun v => v + v)).map (fun sv => 6 * sv)
        = ((diffs (splineSlopes xs ys)).map (fun sv => 6 * sv)).map (fun v => v + v) from by
      rw [List.map_map, List.map_map]
      exact List.map_congr_left (fun a _ => by simp only [Function.comp]; ring),
    zipWith_rows_map_double]
  cases List.zipWith (fun hp d => (hp.1, 2 * (hp.1 + hp.2), hp.2, d))
      ((diffs xs).zip (diffs xs).tail)
      ((diffs (splineSlopes xs ys)).map (fun sv => 6 * sv)) with
  | nil => rfl
  | cons r rest =>
    rw [List.map_cons]
    show fixFirstRow (r.1, r.2.1, r.2.2.1, r.2.2.2 + r.2.2.2)
        :: mapLast fixLastRow (rest.map _) = _
    rw [fixFirstRow_map_double r, mapLast_map_double fixLastRow fixLastRow_map_double rest]
    rfl

theorem splineInner_map_double (xs ys : List ℚ) :
    splineInner xs (ys.map (fun v => v + v)) = (splineInner xs ys).map (fun v => v + v) := by
  unfold splineInner
  rw [splineRows_map_double, thomasForward_map_double _ 0 0 0 (by norm_num),
    thomasBack_map_double]

theorem moments_map_double (xs ys : List ℚ) :
    moments xs (ys.map (fun v => v + v)) = (moments xs ys).map (fun v => v + v) := by
  simp only [moments]
  rw [splineInner_map_double, List.map_append, List.map_cons]
  rw [headD_map_double, tail_map_double, headD_map_double, getLastD_map_double0,
    dropLast_map_double, getLastD_map_double0]
  congr 1
  · congr 1
    ring
  · rw [List.map_cons, List.map_nil]
    congr 1
    ring

theorem evalSpline_map_double (xs ys M : List ℚ) (x : ℚ) :
    evalSpline xs (ys.map (fun v => v + v)) (M.map (fun v => v + v)) x
      = evalSpline xs ys M x + evalSpline xs ys M x := by
  simp only [evalSpline]
  rw [getD_map_double, getD_map_double, getD_map_double, getD_map_double]
  simp only [evalPiece]
  ring

theorem splineFit_map_double (x y : List ℚ)
    (hdesc : List.Pairwise (fun a b => b < a) x) (xv : ℚ) :
    splineFit x (y.map (fun v => v + v)) xv = splineFit x y xv + splineFit x y xv := by
  have hz : List.Pairwise (fun p q : ℚ × ℚ => q.1 < p.1) (x.zip y) :=
    pairwise_zip_fst x y hdesc
  have hz2 : List.Pairwise (fun p q : ℚ × ℚ => q.1 < p.1)
      ((x.zip y).map (Prod.map id (fun v => v + v))) := by
    rw [List.pairwise_map]
    exact hz.imp (fun h => h)
  unfold splineFit
  rw [List.zip_map_right, sortByFst_eq_reverse _ hz2, sortByFst_eq_reverse _ hz,
    ← List.map_reverse]
  have hfst : (((x.zip y).reverse).map (Prod.map id (fun v => v + v))).map Prod.fst
      = ((x.zip y).reverse).map Prod.fst := by
    rw [List.map_map]
    exact List.map_congr_left (fun p _ => rfl)
  have hsnd : (((x.zip y).reverse).map (Prod.map id (fun v => v + v))).map Prod.snd
      = (((x.zip y).reverse).map Prod.snd).map (fun v => v + v) := by
    rw [List.map_map, List.map_map]
    exact List.map_congr_left (fun p _ => rfl)
  rw [hfst, hsnd, moments_map_double, evalSpline_map_double]

theorem argminAux_map_double :
    ∀ (l : List ℚ) (i best : ℕ) (bv : ℚ),
      argminAux i best (bv + bv) (l.map (fun v => v + v)) = argminAux i best bv l := by
  intro l
  induction l with
  | nil => intro i best bv; rfl
  | cons x l ih =>
    intro i best bv
    rw [List.map_cons, argminAux, argminAux]
    have hiff : (x + x < bv + bv) ↔ (x < bv) := by
      constructor <;> intro h <;> linarith
    by_cases hx : x < bv
    · rw [if_pos (hiff.mpr hx), if_pos hx, ih]
    · rw [if_neg (fun hc => hx (hiff.mp hc)), if_neg hx, ih]

theorem argmin_map_double (l : List ℚ) : argmin (l.map (fun v => v + v)) = argmin l := by
  cases l with
  | nil => rfl
  | cons x l =>
    rw [List.map_cons, argmin, argmin]
    exact argminAux_map_double l 1 0 x

theorem interp_argmin_round_map_double (x y : List ℚ)
    (hdesc : List.Pairwise (fun a b => b < a) x) :
    interp_argmin_round x (y.map (fun v => v + v)) = interp_argmin_round x y := by
  unfold interp_argmin_round
  by_cases h2 : x.length < 2
  · rw [if_pos h2, if_pos h2]
  rw [if_neg h2, if_neg h2]
  by_cases h4 : x.length < 4
  · rw [if_pos h4, if_pos h4]
  rw [if_neg h4, if_neg h4]
  have hdd : (linspace (pymin x) (pymax x) 1000).map (splineFit x (y.map (fun v => v + v)))
      = ((linspace (pymin x) (pymax x) 1000).map (splineFit x y)).map (fun v => v + v) := by
    rw [List.map_map]
    exact List.map_congr_left (fun xv _ => splineFit_map_double x y hdesc xv)
  rw [hdd, argmin_map_double]

theorem mapM_self_add {α : Type} (f : α → Except PyError ℚ) :
    ∀ l : List α,
      (l.mapM fun a => do
          let u ← f a
          let d ← f a
          pure (u + d))
        = (l.mapM f).map (List.map (fun v : ℚ => v + v)) := by
  intro l
  induction l with
  | nil => rfl
  | cons a l ih =>
    rw [List.mapM_cons, List.mapM_cons]
    cases hfa : f a with
    | error e => rfl
    | ok v =>
      cases hrest : l.mapM f with
      | error e =>
        rw [ih, hrest]
        rfl
      | ok vs =>
        rw [ih, hrest]
        rfl

theorem sweep_times_both_same_speed (L : ℚ) (n : PyNum) (s t : ℚ) (m : ℤ) :
    sweep_times_both L n s s t m
      = (sweep_times L n s t m).map (List.map (fun v : ℚ => v + v)) := by
  unfold sweep_times_both sweep_times
  exact mapM_self_add _ _

theorem optimum_rebelay_both_ways_eq_single (L : ℚ) (n : PyNum) (s t : ℚ) (m : ℤ)
    (hL : 0 < L) :
    optimum_rebelay_both_ways L n s s t m = optimum_rebelay L n s t m := by
  unfold optimum_rebelay_both_ways optimum_rebelay
  rw [sweep_times_both_same_speed]
  cases hsw : sweep_times L n s t m with
  | error e => rfl
  | ok ys =>
    show interp_argmin_round (rebelay_lengths L m) (ys.map (fun v : ℚ => v + v))
        = interp_argmin_round (rebelay_lengths L m) ys
    exact interp_argmin_round_map_double _ _ (rebelay_lengths_pairwise_gt L m hL)

/-! ### Remaining small helpers -/

theorem getD_map_range {g : ℕ → ℚ} (n i : ℕ) (h : i < n) :
    ((List.range n).map g).getD i 0 = g i := by
  rw [List.getD_eq_getElem?_getD, List.getElem?_map, List.getElem?_range h]
  rfl

theorem pymin_ge (c : ℚ) (l : List ℚ) (hne : l ≠ []) (h : ∀ z ∈ l, c ≤ z) :
    c ≤ pymin l := by
  cases l with
  | nil => exact absurd rfl hne
  | cons x l => exact le_foldl_min c l x (h x (by simp)) (fun z hz => h z (by simp [hz]))

theorem pymax_le_of (c : ℚ) (l : List ℚ) (hne : l ≠ []) (h : ∀ z ∈ l, z ≤ c) :
    pymax l ≤ c := by
  cases l with
  | nil => exact absurd rfl hne
  | cons x l => exact foldl_max_le c l x (h x (by simp)) (fun z hz => h z (by simp [hz]))

theorem pymin_le_pymax_of (l : List ℚ) (hne : l ≠ []) : pymin l ≤ pymax l := by
  cases l with
  | nil => exact absurd rfl hne
  | cons x l => exact le_trans (foldl_min_le_init l x) (init_le_foldl_max l x)

theorem argmin_lt_of_ne_nil (l : List ℚ) (h : l ≠ []) : argmin l < l.length := by
  cases l with
  | nil => exact absurd rfl h
  | cons x l => exact argmin_lt_length x l

theorem rebelay_lengths_bounds (L : ℚ) (hL : 0 < L) :
    ∀ z ∈ rebelay_lengths L 100, L / 100 ≤ z ∧ z ≤ L := by
  intro z hz
  rw [rebelay_lengths] at hz
  rcases List.mem_map.mp hz with ⟨r, hr, rfl⟩
  rw [List.mem_range, show (100 : ℤ).toNat = 100 from rfl] at hr
  have hr' : (r : ℚ) < 100 := by exact_mod_cast hr
  have hr0 : (0 : ℚ) ≤ (r : ℚ) := by positivity
  constructor
  · apply (div_le_div_iff_of_pos_left hL (by norm_num) (by positivity)).mpr
    exact_mod_cast Nat.succ_le_of_lt hr
  · have h1 : L / ((r : ℚ) + 1) ≤ L / 1 := by
      apply (div_le_div_iff_of_pos_left hL (by positivity) (by norm_num)).mpr
      linarith
    rw [div_one] at h1
    exact h1

/-! ### The claims -/

/-- C1: for every rope length `L`, speed `s > 0`, transition time `t` and
integer caver count `k ≥ 1`, `ascent_time` with zero rebelays returns
exactly `(L/s + t) * k`. -/
theorem claim_single_section_closed_form (L s t : ℚ) (k : ℤ) (hk : 1 ≤ k) (hs : 0 < s) :
    ascent_time L (.int k) 0 s t = .ok ((L / s + t) * (k : ℚ)) := by
  rw [ascent_time_int_eq L t k 0 s hk (ne_of_gt hs)]
  norm_num

theorem claim_single_section_closed_form_witness :
    ascent_time 100 (.int 1) 0 7 2 = .ok ((100 / 7 + 2) * ((1 : ℤ) : ℚ)) :=
  claim_single_section_closed_form 100 7 2 1 (by norm_num) (by norm_num)

/-- C2, counterexample: with `caverCount = 0` the sweep raises a `ValueError`
out of its first `ascent_time` call, so no pair sequences of length
`maxRebelays` are produced — the claim fails as stated for arbitrary
`caverCount`. -/
theorem claim_sweep_parallel_counterexample :
    (¬ ∃ ys, sweep_times 100 (.int 0) 7 2 1 = .ok ys ∧ ys.length = 1)
    ∧ (¬ ∃ ys, sweep_times 100 (.int 4) 0 2 1 = .ok ys ∧ ys.length = 1) := by
  constructor
  · rintro ⟨ys, hys, -⟩
    have hz : ascent_time 100 (.int 0) 0 7 2
        = .error (.valueError "n_cavers must be an integer of at least 1") := by
      unfold ascent_time
      rw [if_pos (Or.inr (by norm_num [PyNum.toRat]))]
    have hsw : sweep_times 100 (.int 0) 7 2 1
        = .error (.valueError "n_cavers must be an integer of at least 1") := by
      unfold sweep_times
      rw [show ((1 : ℤ).toNat) = 1 from rfl, show List.range 1 = [0] from rfl,
        List.mapM_cons, hz]
      rfl
    rw [hsw] at hys
    exact Except.noConfusion hys
  · rintro ⟨ys, hys, -⟩
    have hz : ascent_time 100 (.int 4) 0 0 2 = .error .zeroDivisionError :=
      ascent_time_int_zero_speed 100 2 4 0 (by norm_num)
    have hsw : sweep_times 100 (.int 4) 0 2 1 = .error .zeroDivisionError := by
      unfold sweep_times
      rw [show ((1 : ℤ).toNat) = 1 from rfl, show List.range 1 = [0] from rfl,
        List.mapM_cons, hz]
      rfl
    rw [hsw] at hys
    exact Except.noConfusion hys

/-- C2, amended: additionally assuming an integer `caverCount ≥ 1` and a
nonzero speed, the optimizer sweep collects exactly the `maxRebelays` pairs
`(ropeLength/(r+1), computeTotalTime ropeLength caverCount r speed
transitionTime)` for `r` in `0 .. maxRebelays-1`, in two parallel sequences
of equal length `maxRebelays`. -/
theorem claim_sweep_parallel_amended (L s t : ℚ) (k m : ℤ)
    (hk : 1 ≤ k) (hs : s ≠ 0) (hm : 1 ≤ m) :
    ∃ ys, sweep_times L (.int k) s t m = .ok ys ∧
      (rebelay_lengths L m).length = m.toNat ∧ ys.length = m.toNat ∧
      ((m.toNat : ℤ) = m) ∧
      ∀ i : ℕ, i < m.toNat →
        (rebelay_lengths L m).getD i 0 = L / ((i : ℚ) + 1) ∧
        ascent_time L (.int k) i s t = .ok (ys.getD i 0) := by
  refine ⟨_, sweep_times_eq L t k s m hk hs, rebelay_lengths_length L m, by simp,
    Int.toNat_of_nonneg (by omega), ?_⟩
  intro i hi
  constructor
  · rw [rebelay_lengths, getD_map_range _ _ hi]
  · rw [ascent_time_int_eq L t k i s hk hs, getD_map_range _ _ hi]

theorem claim_sweep_parallel_amended_witness :
    ∃ ys, sweep_times 100 (.int 4) 7 2 2 = .ok ys ∧
      (rebelay_lengths 100 2).length = (2 : ℤ).toNat ∧ ys.length = (2 : ℤ).toNat ∧
      (((2 : ℤ).toNat : ℤ) = 2) ∧
      ∀ i : ℕ, i < (2 : ℤ).toNat →
        (rebelay_lengths 100 2).getD i 0 = 100 / ((i : ℚ) + 1) ∧
        ascent_time 100 (.int 4) i 7 2 = .ok (ys.getD i 0) :=
  claim_sweep_parallel_amended 100 7 2 4 2 (by norm_num) (by norm_num) (by norm_num)

/-- C3: with a nonzero speed, `ascent_time` succeeds exactly when `n_cavers`
is a Python `int` of value at least 1, and on every other `n_cavers`
(including non-integers such as `2.5` and integers below 1 such as `0`) it
raises exactly `ValueError('n_cavers must be an integer of at least 1')`,
before any arithmetic is performed. -/
theorem claim_invalid_cavers_iff (L : ℚ) (n : PyNum) (r : ℕ) (s t : ℚ) (hs : s ≠ 0) :
    ((∃ v, ascent_time L n r s t = .ok v) ↔ n.isInstanceInt = true ∧ 1 ≤ n.toRat)
    ∧ (¬ (n.isInstanceInt = true ∧ 1 ≤ n.toRat) →
        ascent_time L n r s t
          = .error (.valueError "n_cavers must be an integer of at least 1")) := by
  by_cases hval : n.isInstanceInt = true ∧ 1 ≤ n.toRat
  · have hcond : ¬ (n.isInstanceInt = false ∨ n.toRat < 1) := by
      push_neg
      refine ⟨?_, hval.2⟩
      rw [hval.1]
      simp
    have hok : ∃ v, ascent_time L n r s t = .ok v := by
      unfold ascent_time
      rw [if_neg hcond, if_neg hs]
      exact ⟨_, rfl⟩
    exact ⟨⟨fun _ => hval, fun _ => hok⟩, fun hcontra => absurd hval hcontra⟩
  · have hcond : n.isInstanceInt = false ∨ n.toRat < 1 := by
      rcases not_and_or.mp hval with h | h
      · left
        cases hb : n.isInstanceInt
        · rfl
        · exact absurd hb h
      · exact Or.inr (not_le.mp h)
    have herr : ascent_time L n r s t
        = .error (.valueError "n_cavers must be an integer of at least 1") := by
      unfold ascent_time
      rw [if_pos hcond]
    refine ⟨⟨?_, fun hv => absurd hv hval⟩, fun _ => herr⟩
    rintro ⟨v, hv⟩
    rw [herr] at hv
    exact Except.noConfusion hv

theorem claim_invalid_cavers_iff_witness :
    ((∃ v, ascent_time 100 (.float (5 / 2)) 0 7 2 = .ok v) ↔
      (PyNum.float (5 / 2)).isInstanceInt = true ∧ 1 ≤ (PyNum.float (5 / 2)).toRat)
    ∧ (¬ ((PyNum.float (5 / 2)).isInstanceInt = true ∧ 1 ≤ (PyNum.float (5 / 2)).toRat) →
        ascent_time 100 (.float (5 / 2)) 0 7 2
          = .error (.valueError "n_cavers must be an integer of at least 1")) :=
  claim_invalid_cavers_iff 100 (.float (5 / 2)) 0 7 2 (by norm_num)

/-- C4: for every `maxRebelays ≤ 0` the sweep is empty and `optimum_rebelay`
fails — but the error is the input-size `ValueError` raised inside the
`interp1d` call on the empty sample sequences, not a prior validation of
`maxRebelays` by the optimizer (the code has no such check). -/
theorem claim_nonpos_max_rebelays (L : ℚ) (n : PyNum) (s t : ℚ) (m : ℤ) (hm : m ≤ 0) :
    optimum_rebelay L n s t m
      = .error (.valueError "x and y arrays must have at least 2 entries") := by
  have hsw : sweep_times L n s t m = .ok [] := by
    unfold sweep_times
    rw [Int.toNat_of_nonpos hm, List.range_zero]
    rfl
  rw [optimum_rebelay_of_sweep_ok L n s t m [] hsw]
  unfold interp_argmin_round
  have hlen : (rebelay_lengths L m).length < 2 := by
    rw [rebelay_lengths_length, Int.toNat_of_nonpos hm]
    norm_num
  rw [if_pos hlen]

theorem claim_nonpos_max_rebelays_witness :
    (0 : ℤ) ≤ 0 ∧ optimum_rebelay 100 (.int 4) 7 2 0
      = .error (.valueError "x and y arrays must have at least 2 entries") :=
  ⟨le_refl 0, claim_nonpos_max_rebelays 100 (.int 4) 7 2 0 (le_refl 0)⟩

/-- C5, counterexample: at `ropeLength = 1`, `caverCount = 2`, `speed = 1`,
`transitionTime = 0` and the default `maxRebelays = 100`, the optimizer
returns exactly `0.0` (the smallest sampled section length is `1/100` and
`round(0.01, 1) = 0.0`), which is not strictly greater than `0`. -/
theorem claim_result_in_open_interval_counterexample :
    ¬ (∀ v : ℚ, optimum_rebelay 1 (.int 2) 1 0 100 = .ok v → 0 < v ∧ v < 1) := by
  intro hcl
  exact absurd (hcl 0 optimum_rebelay_linear_eval).1 (lt_irrefl 0)

set_option maxRecDepth 8000 in
theorem interp_argmin_round_mem (x y : List ℚ) (h4 : 4 ≤ x.length) :
    ∃ v xv, interp_argmin_round x y = .ok v ∧ pymin x ≤ xv ∧ xv ≤ pymax x ∧ v = pyround1 xv := by
  unfold interp_argmin_round
  rw [if_neg (by omega), if_neg (by omega)]
  have hne : x ≠ [] := List.ne_nil_of_length_pos (by omega)
  have hab : pymin x ≤ pymax x := pymin_le_pymax_of x hne
  have hsub : (0 : ℚ) ≤ pymax x - pymin x := sub_nonneg.mpr hab
  set idx := argmin ((linspace (pymin x) (pymax x) 1000).map (splineFit x y)) with hidx
  have hidxlt : idx < 1000 := by
    have h := argmin_lt_of_ne_nil ((linspace (pymin x) (pymax x) 1000).map (splineFit x y))
      (List.ne_nil_of_length_pos (by rw [List.length_map, linspace_length]; norm_num))
    rw [List.length_map, linspace_length] at h
    exact h
  refine ⟨_, (linspace (pymin x) (pymax x) 1000).getD idx 0, rfl, ?_, ?_, rfl⟩
  · rw [linspace_getD _ _ 1000 idx hidxlt]
    have h0 : (0 : ℚ) ≤ (pymax x - pymin x) * (idx : ℚ) / (((1000 : ℕ) : ℚ) - 1) := by
      apply div_nonneg (mul_nonneg hsub (by positivity))
      norm_num
    linarith
  · rw [linspace_getD _ _ 1000 idx hidxlt]
    have hle : idx ≤ 999 := by omega
    have h999 : ((idx : ℚ)) ≤ 999 := by exact_mod_cast hle
    have h1 : (pymax x - pymin x) * (idx : ℚ) / (((1000 : ℕ) : ℚ) - 1)
        ≤ pymax x - pymin x := by
      rw [show (((1000 : ℕ) : ℚ) - 1) = 999 from by norm_num,
        div_le_iff (by norm_num : (0 : ℚ) < 999)]
      nlinarith
    linarith

/-- C5, amended: under the same hypotheses the value returned by
`optimum_rebelay` is `round(x, 1)` for some sampled section length `x`
with `ropeLength/100 ≤ x ≤ ropeLength`; after rounding, the result can
reach `0` (small ropes) or `ropeLength` itself, so the strict bounds of the
original claim fail. -/
theorem claim_result_in_open_interval_amended (L s t : ℚ) (k : ℤ)
    (hL : 0 < L) (hk : 1 ≤ k) (hs : 0 < s) (ht : 0 ≤ t) :
    ∃ v x, optimum_rebelay L (.int k) s t 100 = .ok v ∧
      L / 100 ≤ x ∧ x ≤ L ∧ v = pyround1 x := by
  have hsw := sweep_times_eq L t k s 100 hk (ne_of_gt hs)
  rw [optimum_rebelay_of_sweep_ok _ _ _ _ _ _ hsw]
  have hlen : (rebelay_lengths L 100).length = 100 := by
    rw [rebelay_lengths_length]
    rfl
  obtain ⟨v, xv, heq, hmin, hmax, hvr⟩ :=
    interp_argmin_round_mem (rebelay_lengths L 100) _ (by omega)
  have hne : rebelay_lengths L 100 ≠ [] := List.ne_nil_of_length_pos (by omega)
  have hbounds := rebelay_lengths_bounds L hL
  refine ⟨v, xv, heq, ?_, ?_, hvr⟩
  · exact le_trans (pymin_ge _ _ hne (fun z hz => (hbounds z hz).1)) hmin
  · exact le_trans hmax (pymax_le_of _ _ hne (fun z hz => (hbounds z hz).2))

theorem claim_result_in_open_interval_amended_witness :
    ∃ v x, optimum_rebelay 100 (.int 4) 7 2 100 = .ok v ∧
      (100 : ℚ) / 100 ≤ x ∧ x ≤ 100 ∧ v = pyround1 x :=
  claim_result_in_open_interval_amended 100 7 2 4 (by norm_num) (by norm_num)
    (by norm_num) (by norm_num)

/-- C6: with equal ascent and descent speeds, `optimum_rebelay_both_ways`
returns exactly the same result as `optimum_rebelay`: every combined sample
is exactly twice the single-direction sample, doubling is linear through
the spline fit, and `argmin` (first minimum) is invariant under doubling
every value. -/
theorem claim_both_ways_equal_speeds (L s t : ℚ) (k m : ℤ)
    (hL : 0 < L) (hk : 1 ≤ k) (hs : 0 < s) :
    optimum_rebelay_both_ways L (.int k) s s t m = optimum_rebelay L (.int k) s t m :=
  optimum_rebelay_both_ways_eq_single L (.int k) s t m hL

theorem claim_both_ways_equal_speeds_witness :
    optimum_rebelay_both_ways 100 (.int 4) 7 7 2 100 = optimum_rebelay 100 (.int 4) 7 2 100 :=
  claim_both_ways_equal_speeds 100 7 2 4 100 (by norm_num) (by norm_num) (by norm_num)

/-- C7: for positive rope length and speed, nonnegative transition time and
any rebelay count, the total time is monotone in the (integer, at least 1)
caver count. -/
theorem claim_monotone_in_cavers (L s t : ℚ) (r : ℕ) (n1 n2 : ℤ)
    (hL : 0 < L) (hs : 0 < s) (ht : 0 ≤ t) (h1 : 1 ≤ n1) (h12 : n1 ≤ n2) :
    ∃ v1 v2, ascent_time L (.int n1) r s t = .ok v1 ∧
      ascent_time L (.int n2) r s t = .ok v2 ∧ v1 ≤ v2 := by
  refine ⟨_, _, ascent_time_int_eq L t n1 r s h1 (ne_of_gt hs),
    ascent_time_int_eq L t n2 r s (le_trans h1 h12) (ne_of_gt hs), ?_⟩
  have hsl : 0 ≤ (if 0 < r then L / ((r : ℚ) + 1) else L) := by
    split
    · positivity
    · linarith
  have hst : 0 ≤ (if 0 < r then L / ((r : ℚ) + 1) else L) / s + t :=
    add_nonneg (div_nonneg hsl (le_of_lt hs)) ht
  have hc : (n1 : ℚ) ≤ (n2 : ℚ) := by exact_mod_cast h12
  apply mul_le_mul_of_nonneg_left _ hst
  linarith

theorem claim_monotone_in_cavers_witness :
    ∃ v1 v2, ascent_time 100 (.int 1) 2 7 2 = .ok v1 ∧
      ascent_time 100 (.int 3) 2 7 2 = .ok v2 ∧ v1 ≤ v2 :=
  claim_monotone_in_cavers 100 7 2 2 1 3 (by norm_num) (by norm_num) (by norm_num)
    (by norm_num) (by norm_num)

/-- C8: for positive rope length the `sectionLength` samples collected by the
sweep are strictly decreasing in the rebelay count, and the embedding passes
them to the interpolation in exactly that (descending) order, with no
ascending sort in the optimizer itself. -/
theorem claim_lengths_strictly_descending (L : ℚ) (m : ℤ) (hL : 0 < L) :
    List.Pairwise (· > ·) (rebelay_lengths L m) :=
  rebelay_lengths_pairwise_gt L m hL

theorem claim_lengths_strictly_descending_witness :
    List.Pairwise (· > ·) (rebelay_lengths 100 5) :=
  claim_lengths_strictly_descending 100 5 (by norm_num)

/-- C9: `computeTotalTime(100, 4, 3, 7, 2)` evaluates via
`sectionLength = 25` and `sectionTime = 25/7 + 2` to exactly
`7 * (25/7 + 2) = 39` in exact rational arithmetic. -/
theorem claim_worked_example :
    ascent_time 100 (.int 4) 3 7 2 = .ok (7 * (25 / 7 + 2)) ∧ (7 * (25 / 7 + 2) : ℚ) = 39 := by
  constructor
  · rw [ascent_time_int_eq 100 2 4 3 7 (by norm_num) (by norm_num)]
    norm_num
  · norm_num

/-- C10: `ascent_time` never validates the speed: with a valid caver count
and `ascent_speed = 0` the division `section_length / ascent_speed` is
reached and raises `ZeroDivisionError` (not the `ValueError` of the argument
check), while for any nonzero speed the function is total and returns a
value. -/
theorem claim_zero_speed_division (L t : ℚ) (k : ℤ) (r : ℕ) (s : ℚ) (hk : 1 ≤ k) :
    ascent_time L (.int k) r 0 t = .error .zeroDivisionError
    ∧ (s ≠ 0 → ∃ v, ascent_time L (.int k) r s t = .ok v) := by
  constructor
  · exact ascent_time_int_zero_speed L t k r hk
  · intro hs
    exact ⟨_, ascent_time_int_eq L t k r s hk hs⟩

theorem claim_zero_speed_division_witness :
    ascent_time 100 (.int 4) 0 0 2 = .error .zeroDivisionError
    ∧ ∃ v, ascent_time 100 (.int 4) 0 7 2 = .ok v :=
  ⟨(claim_zero_speed_division 100 2 4 0 7 (by norm_num)).1,
    (claim_zero_speed_division 100 2 4 0 7 (by norm_num)).2 (by norm_num)⟩
